import Mathlib

/-!
# Verification of the dagenslunch menu aggregator (src/build.py)

Shallow embedding of the pure core of `build.py`: the text normalizer
`clean_lines`, the two per-source extractors `parse_fei` and
`parse_cirkeln` over a tree model of parsed HTML documents, the
renderer helpers `force_linebreaks` / `render_html`, and the
per-source assembly loop of `main`.  Fetching is modelled as an
oracle (`Except` value per source); everything else follows the
Python source line by line.
-/

namespace Dagenslunch

/-! ## Character classes, Python-style

`pyIsSpace` is Python's notion of whitespace (`str.isspace`, and the
set matched by `\s` in `re` on `str` patterns): ASCII whitespace plus
the Unicode space separators and the information-separator controls.
-/

def pyIsSpace (c : Char) : Bool :=
  c == ' ' || c == '\t' || c == '\n' || c == '\x0d' || c == '\x0b' || c == '\x0c' ||
  c == '\x1c' || c == '\x1d' || c == '\x1e' || c == '\x1f' || c == '\x85' ||
  c == '\xa0' || c == ' ' ||
  (' ' ≤ c && c ≤ ' ') ||
  c == ' ' || c == ' ' || c == ' ' || c == ' ' || c == '　'

/-- The line boundaries recognized by Python's `str.splitlines`. -/
def pyIsLineBreak (c : Char) : Bool :=
  c == '\n' || c == '\x0d' || c == '\x0b' || c == '\x0c' ||
  c == '\x1c' || c == '\x1d' || c == '\x1e' || c == '\x85' ||
  c == ' ' || c == ' '

/-- Python `str.lower` restricted to the characters this program meets
(ASCII letters plus the Swedish letters used in the weekday labels and
section markers). -/
def pyLowerChar (c : Char) : Char :=
  if 'A' ≤ c && c ≤ 'Z' then Char.ofNat (c.toNat + 32)
  else if c == 'Å' then 'å'
  else if c == 'Ä' then 'ä'
  else if c == 'Ö' then 'ö'
  else if c == 'É' then 'é'
  else if c == 'Ü' then 'ü'
  else c

/-- Python `str.upper` on the same character repertoire. -/
def pyUpperChar (c : Char) : Char :=
  if 'a' ≤ c && c ≤ 'z' then Char.ofNat (c.toNat - 32)
  else if c == 'å' then 'Å'
  else if c == 'ä' then 'Ä'
  else if c == 'ö' then 'Ö'
  else if c == 'é' then 'É'
  else if c == 'ü' then 'Ü'
  else c

/-! ## List-of-characters utilities -/

/-- Python `str.strip(chars)`: remove characters satisfying `p` from
both ends. -/
def pyStripChars (p : Char → Bool) (l : List Char) : List Char :=
  (l.dropWhile p).rdropWhile p

/-- Python `str.strip()` (whitespace strip). -/
def pyStrip (l : List Char) : List Char :=
  pyStripChars pyIsSpace l

/-- Python `sep.join(parts)`. -/
def joinSep (sep : String) : List String → String
  | [] => ""
  | [x] => x
  | x :: xs => x ++ sep ++ joinSep sep xs

/-- Worker for `collapseWS`: `inRun` records whether the previous
character belonged to a whitespace run (whose single `' '` replacement
has already been emitted). -/
def collapseGo : Bool → List Char → List Char
  | _, [] => []
  | inRun, c :: cs =>
    if pyIsSpace c then
      if inRun then collapseGo true cs else ' ' :: collapseGo true cs
    else c :: collapseGo false cs

/-- `re.sub(r"\s+", " ", -)`: every maximal run of whitespace becomes a
single ASCII space. -/
def collapseWS (l : List Char) : List Char :=
  collapseGo false l

/-- Python `str.splitlines` on character lists (accumulator holds the
current segment reversed); `"\r\n"` counts as a single boundary, and a
trailing boundary does not produce a final empty segment. -/
def splitLinesAux : List Char → List Char → List (List Char)
  | [], acc => if acc.isEmpty then [] else [acc.reverse]
  | '\x0d' :: '\n' :: rest, acc => acc.reverse :: splitLinesAux rest []
  | c :: rest, acc =>
    if pyIsLineBreak c then acc.reverse :: splitLinesAux rest []
    else splitLinesAux rest (c :: acc)

def splitLines (l : List Char) : List (List Char) :=
  splitLinesAux l []

/-! ## The Text Normalizer, `clean_lines` (build.py lines 41-43) -/

/-- The decorative characters stripped from both ends of each line:
the literal argument `" •*-–—. "` of `str.strip` in `clean_lines`. -/
def stripSetChar (c : Char) : Bool :=
  c == ' ' || c == '•' || c == '*' || c == '-' || c == '–' || c == '—' || c == '.'

/-- One line of `clean_lines`: `re.sub(r"\s+", " ", ln).strip(" •*-–—. ")`. -/
def cleanLine (l : List Char) : List Char :=
  pyStripChars stripSetChar (collapseWS l)

def cleanLinesL (l : List Char) : List (List Char) :=
  ((splitLines l).map cleanLine).filter (fun x => !x.isEmpty)

/-- `clean_lines` (build.py lines 41-43). -/
def clean_lines (s : String) : List String :=
  (cleanLinesL s.data).map (fun l => String.mk l)

/-! ### Invariants of the normalizer -/

/-- The first character, if any, is not whitespace. -/
def headNotWS : List Char → Bool
  | [] => true
  | c :: _ => !pyIsSpace c

/-- Whitespace is collapsed: every whitespace character in the list is
a single ASCII space not followed by further whitespace. -/
def wsCollapsed : List Char → Bool
  | [] => true
  | c :: rest =>
    (if pyIsSpace c then c == ' ' && headNotWS rest else true) && wsCollapsed rest

/-! ## Document model

A parsed HTML document is a forest of nodes: text nodes
(`NavigableString`) and elements with a tag name and children.  A
`Doc` is the list of top-level nodes of the soup.  BeautifulSoup
details that the code relies on and that the model reproduces:
`find_all` traverses in document (pre)order; `find_next_sibling()`
with no arguments can return both tags and text nodes (whose `.name`
is `None`, as the skip condition in `parse_fei` anticipates);
`get_text(sep, strip=True)` joins the stripped, non-empty descendant
strings with the separator. -/

inductive Node : Type where
  | text (s : String) : Node
  | elem (tag : String) (children : List Node) : Node

abbrev Doc := List Node

/-- `.name`: `None` for a text node, the tag name for an element. -/
def Node.name? : Node → Option String
  | .text _ => none
  | .elem t _ => some t

mutual
/-- All descendant text-node strings in document order (bs4 `.strings`). -/
def Node.allStrings : Node → List String
  | .text s => [s]
  | .elem _ cs => allStringsOf cs

def allStringsOf : List Node → List String
  | [] => []
  | n :: ns => n.allStrings ++ allStringsOf ns
end

/-- `get_text(separator=sep, strip=True)`. -/
def getText (sep : String) (n : Node) : String :=
  joinSep sep
    (((n.allStrings).map (fun s => String.mk (pyStrip s.data))).filter (fun s => s != ""))

/-- Uppercase a string character-wise (Python `str.upper`). -/
def pyUpperStr (s : String) : String :=
  String.mk (s.data.map pyUpperChar)

/-- Lowercase a string character-wise (Python `str.lower`). -/
def pyLowerStr (s : String) : String :=
  String.mk (s.data.map pyLowerChar)

/-- Python `str.capitalize`: first character upper, rest lower. -/
def pyCapitalize (s : String) : String :=
  match s.data with
  | [] => ""
  | c :: rest => String.mk (pyUpperChar c :: rest.map pyLowerChar)

/-- `WEEKDAYS_FULL` (build.py line 26). -/
def WEEKDAYS_FULL : List String :=
  ["MÅNDAG", "TISDAG", "ONSDAG", "TORSDAG", "FREDAG", "LÖRDAG", "SÖNDAG"]

mutual
/-- Element nodes strictly inside a node, in document (pre)order, each
paired with its following siblings. -/
def elemsInside : Node → List (Node × List Node)
  | .text _ => []
  | .elem _ cs => elemsWithSibs cs

/-- All element nodes of a forest in document (pre)order, each paired
with the list of its following siblings (the nodes `find_next_sibling`
walks through). -/
def elemsWithSibs : List Node → List (Node × List Node)
  | [] => []
  | n :: rest =>
    (match n with
      | .text _ => []
      | .elem t cs => [(Node.elem t cs, rest)]) ++
    (elemsInside n ++ elemsWithSibs rest)
end

/-! ## Extractor A, `parse_fei` (build.py lines 45-84) -/

/-- Candidate text: `(tag.get_text(separator=" ", strip=True) or "").strip()`. -/
def candText (n : Node) : String :=
  String.mk (pyStrip (getText " " n).data)

/-- The tag names scanned for weekday candidates (line 47). -/
def feiCandNames : List String := ["h2", "h3", "h4", "strong", "p"]

/-- The candidate elements, in document order (lines 46-50). -/
def feiCandidates (doc : Doc) (weekdayUpper : String) : List (Node × List Node) :=
  (elemsWithSibs doc).filter
    (fun c => feiCandNames.any (fun nm => c.1.name? == some nm) &&
      pyUpperStr (candText c.1) == weekdayUpper)

/-- Skip condition of the hop loop (line 56): text nodes, `<br>`, and
elements with no stripped text. -/
def Node.isSkippable (n : Node) : Bool :=
  n.name? == none || n.name? == some "br" || getText "" n == ""

/-- The hop loop (lines 54-58): advance over skippable siblings while
fewer than 6 hops were made; return the node the loop stops on
together with its following siblings. -/
def feiSkip : Nat → List Node → Option (Node × List Node)
  | _, [] => none
  | hops, n :: rest =>
    if hops < 6 && n.isSkippable then feiSkip (hops + 1) rest
    else some (n, rest)

/-- `next_el.find_all("li")` items: trimmed text of each descendant
`li`, non-empty only, document order (lines 62-65). -/
def feiListItems (n : Node) : List String :=
  match n with
  | .text _ => []
  | .elem _ cs =>
    ((((elemsWithSibs cs).map Prod.fst).filter
        (fun m => m.name? == some "li")).map (fun li => getText " " li)).filter
      (fun t => t != "")

/-- Stop markers of the running-text walk (line 69). -/
def feiStopWords : List String :=
  WEEKDAYS_FULL ++ ["PRIS OCH ÖPPETTIDER", "VECKANS VEGETARISKA"]

/-- `t and t.upper() in stop_words` (line 73): case-insensitive match
against a stop marker (always false on the empty string). -/
def feiIsStop (t : String) : Bool :=
  feiStopWords.contains (pyUpperStr t)

/-- The running-text walk (lines 66-78): collect each sibling's text,
at most 12 steps, stopping before the first sibling whose text is a
stop marker. -/
def feiBlockGo : Nat → List Node → List String
  | _, [] => []
  | steps, n :: rest =>
    if steps < 12 then
      if getText " " n != "" && feiIsStop (getText " " n) then []
      else
        (if getText " " n != "" then [getText " " n] else []) ++
          feiBlockGo (steps + 1) rest
    else []

/-- What one candidate contributes (lines 53-81). -/
def feiCandidateItems (sibs : List Node) : List String :=
  match feiSkip 0 sibs with
  | none => []
  | some (n, rest) =>
    if n.name? == some "ul" then feiListItems n
    else
      (clean_lines (joinSep "\n" (feiBlockGo 0 (n :: rest)))).filter
        (fun ln => 3 < ln.length)

/-- The candidate loop (lines 52-83): the shared `items` accumulator,
with `break` as soon as it is non-empty. -/
def parseFeiGo : List (Node × List Node) → List String → List String
  | [], items => items
  | c :: rest, items =>
    let items2 := items ++ feiCandidateItems c.2
    if items2.isEmpty then parseFeiGo rest items2 else items2

/-- `parse_fei` (build.py lines 45-84). -/
def parse_fei (doc : Doc) (weekdayUpper : String) : List String :=
  parseFeiGo (feiCandidates doc weekdayUpper) []

/-- The item list of the first entry that has a non-empty one, else
empty: the reference behaviour C1 describes. -/
def firstNonEmpty : List (List String) → List String
  | [] => []
  | x :: xs => if x.isEmpty then firstNonEmpty xs else x

/-! ## Extractor B, `parse_cirkeln` (build.py lines 86-123) -/

/-- Case-insensitive prefix test (Python `re` with `re.I`). -/
def startsWithCI : List Char → List Char → Bool
  | [], _ => true
  | _ :: _, [] => false
  | p :: ps, c :: cs => (pyLowerChar p == pyLowerChar c) && startsWithCI ps cs

/-- `re.search(pat, t, re.I)` for a literal pattern: case-insensitive
substring containment. -/
def containsCI (pat : List Char) : List Char → Bool
  | [] => startsWithCI pat []
  | c :: cs => startsWithCI pat (c :: cs) || containsCI pat cs

def pyIsDigit (c : Char) : Bool := '0' ≤ c && c ≤ '9'

/-- `re.compile(r"Vecka\s+\d+", re.I)` matching at the head of the
list: the literal, at least one whitespace, then a digit. -/
def veckaPatternAt (l : List Char) : Bool :=
  startsWithCI "Vecka".data l &&
  !((l.drop 5).takeWhile pyIsSpace).isEmpty &&
  (match (l.drop 5).dropWhile pyIsSpace with
    | d :: _ => pyIsDigit d
    | [] => false)

/-- `re.search` of the `Vecka\s+\d+` pattern. -/
def containsVecka : List Char → Bool
  | [] => false
  | c :: cs => veckaPatternAt (c :: cs) || containsVecka cs

mutual
/-- Text nodes inside a node (whose following siblings are `sibs`),
each paired with its parent element and the parent's following
siblings — what `tag.parent` plus `find_next_sibling` walks over for
`soup.find_all(text=True)` hits. -/
def textsUnder : Node → List Node → List (String × Node × List Node)
  | .text _, _ => []
  | .elem t cs, sibs => textsAmong (Node.elem t cs) sibs cs

def textsAmong : Node → List Node → List Node → List (String × Node × List Node)
  | _, _, [] => []
  | parent, parentSibs, n :: rest =>
    (match n with
      | .text s => [(s, parent, parentSibs)]
      | .elem _ _ => []) ++
    (textsUnder n rest ++ textsAmong parent parentSibs rest)
end

/-- The root of the soup: parent of the top-level nodes. -/
def soupNode (doc : Doc) : Node := Node.elem "[document]" doc

/-- `soup.find_all(text=True)` in document order, with parent context. -/
def docTexts (doc : Doc) : List (String × Node × List Node) :=
  textsAmong (soupNode doc) [] doc

/-- First loop of `parse_cirkeln` (lines 89-93): the first text node
whose stripped content matches both patterns; the container is its
parent. -/
def cirkAnchor (doc : Doc) : Option (Node × List Node) :=
  match (docTexts doc).find? (fun p =>
      containsCI "Lunchmeny".data (pyStrip p.1.data) &&
      containsVecka (pyStrip p.1.data)) with
  | some p => some p.2
  | none => none

def cirkFallbackNames : List String := ["h1", "h2", "h3", "p", "div"]

/-- Fallback loop (lines 94-98): first block element whose text
contains the lunch-menu marker. -/
def cirkFallback (doc : Doc) : Option (Node × List Node) :=
  (elemsWithSibs doc).find? (fun c =>
    cirkFallbackNames.any (fun nm => c.1.name? == some nm) &&
    containsCI "Lunchmeny".data (getText " " c.1).data)

def cirkContainer (doc : Doc) : Option (Node × List Node) :=
  match cirkAnchor doc with
  | some c => some c
  | none => cirkFallback doc

/-- The 80-step sibling walk from the container (lines 100-107). -/
def cirkWalk : Nat → List Node → List String
  | _, [] => []
  | steps, n :: rest =>
    if steps < 80 then getText " " n :: cirkWalk (steps + 1) rest else []

/-- `full = "\n".join([t for t in text if t])` (line 108). -/
def cirkCombined (doc : Doc) : String :=
  match cirkContainer doc with
  | none => ""
  | some (n, sibs) =>
    joinSep "\n" ((cirkWalk 0 (n :: sibs)).filter (fun t => t != ""))

def wdOrder : List String := ["Måndag", "Tisdag", "Onsdag", "Torsdag", "Fredag"]

def cirkMarkers : List String := ["Kontakt", "Öppettider", "Veckans vegetariska"]

/-- The lookahead of the extraction regex (line 114): the remaining
text starts with one of the five business-day names or one of the
fixed markers, case-insensitively, or `$` holds (end of string, or a
final newline remains — Python `$` without `re.M`). -/
def cirkBoundary (cs : List Char) : Bool :=
  wdOrder.any (fun w => startsWithCI w.data cs) ||
  cirkMarkers.any (fun w => startsWithCI w.data cs) ||
  cs == [] || cs == ['\n']

/-- Lazy extension of `(.+?)` past its first character: stop at the
first position where the lookahead matches. -/
def captureWhile : List Char → List Char
  | [] => []
  | d :: rest => if cirkBoundary (d :: rest) then [] else d :: captureWhile rest

/-- `(.+?)` must take at least one character, then extends lazily. -/
def captureFrom : List Char → List Char
  | [] => []
  | c :: rest => c :: captureWhile rest

/-- After the weekday literal: the greedy `\s*` takes the maximal
whitespace run, backing off just enough to leave one character for
`(.+?)`. -/
def captureAfter (qs : List Char) : List Char :=
  captureFrom (qs.drop (min (qs.takeWhile pyIsSpace).length (qs.length - 1)))

/-- `re.search` of the day pattern (lines 113-117): leftmost position
where the capitalized weekday matches case-insensitively with at least
one character after it; `none` when no position admits a match. -/
def cirkMatch (day : String) : List Char → Option (List Char)
  | [] => none
  | c :: cs =>
    if startsWithCI day.data (c :: cs) && !((c :: cs).drop day.data.length).isEmpty then
      some (captureAfter ((c :: cs).drop day.data.length))
    else cirkMatch day cs

/-- The boilerplate filter of line 122:
`re.match(r"^Pris|^11:|^Dagens|^Veckans", ln, re.I)`. -/
def cirkBoilerplate (ln : String) : Bool :=
  startsWithCI "Pris".data ln.data || startsWithCI "11:".data ln.data ||
  startsWithCI "Dagens".data ln.data || startsWithCI "Veckans".data ln.data

/-- `parse_cirkeln` (build.py lines 86-123). -/
def parse_cirkeln (doc : Doc) (weekdayUpper : String) : List String :=
  match cirkMatch (pyCapitalize weekdayUpper) (cirkCombined doc).data with
  | none => []
  | some block =>
    (clean_lines (String.mk block)).filter (fun ln =>
      3 < ln.length && !cirkBoilerplate ln)

/-! ### Specification-side capture for C2

`specBoundaryOther` is modelled from the claim wording: the capture
extends up to the first *other* weekday among the five business-day
labels, a fixed trailing marker, or end of string.  `specBoundaryAll`
is the amended version: *any* of the five weekday names, including a
repeated occurrence of the target day itself. -/

def specBoundaryOther (day : String) (cs : List Char) : Bool :=
  (wdOrder.filter (fun w => w != day)).any (fun w => startsWithCI w.data cs) ||
  cirkMarkers.any (fun w => startsWithCI w.data cs) ||
  cs == []

def specBoundaryAll (cs : List Char) : Bool :=
  wdOrder.any (fun w => startsWithCI w.data cs) ||
  cirkMarkers.any (fun w => startsWithCI w.data cs) ||
  cs == []

def specCaptureWhile (bdry : List Char → Bool) : List Char → List Char
  | [] => []
  | d :: rest => if bdry (d :: rest) then [] else d :: specCaptureWhile bdry rest

def specCaptureFrom (bdry : List Char → Bool) : List Char → List Char
  | [] => []
  | c :: rest => c :: specCaptureWhile bdry rest

def specCaptureAfter (bdry : List Char → Bool) (qs : List Char) : List Char :=
  specCaptureFrom bdry (qs.drop (min (qs.takeWhile pyIsSpace).length (qs.length - 1)))

def specSearch (day : String) (bdry : List Char → Bool) : List Char → Option (List Char)
  | [] => none
  | c :: cs =>
    if startsWithCI day.data (c :: cs) && !((c :: cs).drop day.data.length).isEmpty then
      some (specCaptureAfter bdry ((c :: cs).drop day.data.length))
    else specSearch day bdry cs

/-- Extractor B as the claim C2 words it (boundary: *other* weekdays). -/
def cirkelnSpecOther (doc : Doc) (weekdayUpper : String) : List String :=
  match specSearch (pyCapitalize weekdayUpper)
      (specBoundaryOther (pyCapitalize weekdayUpper)) (cirkCombined doc).data with
  | none => []
  | some block =>
    (clean_lines (String.mk block)).filter (fun ln =>
      3 < ln.length && !cirkBoilerplate ln)

/-- Extractor B as amended (boundary: *any* of the five weekdays). -/
def cirkelnSpecAll (doc : Doc) (weekdayUpper : String) : List String :=
  match specSearch (pyCapitalize weekdayUpper) specBoundaryAll (cirkCombined doc).data with
  | none => []
  | some block =>
    (clean_lines (String.mk block)).filter (fun ln =>
      3 < ln.length && !cirkBoilerplate ln)

/-! ## Renderer helpers (build.py lines 135-188) -/

/-- State machine for one pass of `re.sub(r"\s*SEP\s*", "<br>", -)`:
`absorb` is set right after a replacement while the greedy trailing
`\s*` is still consuming whitespace; `buf` holds pending whitespace
(reversed) that may yet become the leading `\s*` of a match. -/
def forceGo (sep : Char) : Bool → List Char → List Char → List Char
  | _, buf, [] => buf.reverse
  | absorb, buf, c :: cs =>
    if pyIsSpace c then
      if absorb then forceGo sep absorb buf cs
      else forceGo sep absorb (c :: buf) cs
    else if c == sep then
      "<br>".data ++ forceGo sep true [] cs
    else
      buf.reverse ++ c :: forceGo sep false [] cs

/-- `force_linebreaks` (build.py lines 135-138): slashes first, then
pipes, each with surrounding whitespace, become `<br>`. -/
def force_linebreaks (text : String) : String :=
  String.mk (forceGo '|' false [] (forceGo '/' false [] text.data))

structure DayMenu where
  restaurant_key : String
  items : List String
deriving DecidableEq

/-- Registry tables (build.py lines 13-24). -/
def SOURCE_URLS : List (String × String) :=
  [("FEI", "https://www.fei.se/meny-fei-restaurant-lounge"),
   ("Cirkeln", "https://cirkelnstockholm.se/restauranger/restaurang-cirkeln/")]

def DISPLAY_NAMES : List (String × String) :=
  [("FEI", "FEI Restaurang & Lounge"),
   ("Cirkeln", "Restaurang Cirkeln")]

def LOGOS : List (String × String) :=
  [("FEI", "https://res.cloudinary.com/emg-prod/image/upload/c_limit,h_100,w_200/v1/institutes/institute10621/logos/logo"),
   ("Cirkeln", "https://cirkelnstockholm.se/wp-content/uploads/2021/09/c_restaurang-S-150x150.png")]

/-- `dict.get(key, default)`. -/
def lookupD (m : List (String × String)) (k dflt : String) : String :=
  match m.find? (fun p => p.1 == k) with
  | some p => p.2
  | none => dflt

/-- The dish lines of one restaurant card (lines 178-182): one
`div.dish` per item with `force_linebreaks` applied, or the single
italic placeholder when the item list is empty. -/
def dishLines (weekdayUpper : String) (dm : DayMenu) : List String :=
  if dm.items.isEmpty then
    ["      <div class=\x27dish\x27><em>ingen meny hittad för " ++
      pyCapitalize weekdayUpper ++ "</em></div>\n"]
  else
    dm.items.map (fun dish =>
      "      <div class=\x27dish\x27>" ++ force_linebreaks dish ++ "</div>\n")

/-- One restaurant card (lines 170-183). -/
def renderRest (weekdayUpper : String) (dm : DayMenu) : String :=
  "    <div class=\x27rest\x27>\n      <div class=\x27head\x27>\n" ++
  (if lookupD LOGOS dm.restaurant_key "" != "" then
    "        <img class=\x27logo\x27 src=\x27" ++ lookupD LOGOS dm.restaurant_key "" ++
      "\x27 alt=\x27" ++ lookupD DISPLAY_NAMES dm.restaurant_key dm.restaurant_key ++
      " logotyp\x27>\n"
  else "") ++
  "        <div class=\x27name\x27>" ++
    lookupD DISPLAY_NAMES dm.restaurant_key dm.restaurant_key ++
    "</div>\n      </div>\n" ++
  String.join (dishLines weekdayUpper dm) ++
  "    </div>\n"

/-- The fixed template head of `render_html` (lines 142-169), with the
weekday interpolated. -/
def htmlHeader (weekdayUpper : String) : String :=
  "<!doctype html>\n<meta charset=\"utf-8\">\n<meta name=\"viewport\" content=\"width=device-width,initial-scale=1\">\n<meta http-equiv=\"refresh\" content=\"1800\">\n<title>Dagens lunch</title>\n<style>\n  :root \x7b --fg:#111; --muted:#555; --card:#fff; --bg:#f6f7f9; \x7d\n  @media (prefers-color-scheme: dark) \x7b\n    :root \x7b --fg:#eaeaea; --muted:#a0a0a0; --card:#171717; --bg:#0e0f11; \x7d\n  \x7d\n  body\x7bfont-family:system-ui,-apple-system,Segoe UI,Roboto,Helvetica,Arial,sans-serif;background:var(--bg);color:var(--fg);margin:0\x7d\n  .wrap\x7bmax-width:760px;margin:32px auto;padding:0 16px\x7d\n  .card\x7bbackground:var(--card);border-radius:16px;box-shadow:0 6px 24px rgba(0,0,0,.08);padding:24px\x7d\n  h1\x7bmargin:0 0 6px 0;font-size:28px\x7d\n  h2\x7bmargin:0 0 16px 0;font-size:18px;letter-spacing:1px;color:var(--muted)\x7d\n  .rest\x7bpadding:14px 0;border-top:1px solid rgba(128,128,128,.25)\x7d\n  .rest:first-of-type\x7bborder-top:none\x7d\n  .head\x7bdisplay:flex;align-items:center;gap:12px;margin-bottom:6px\x7d\n  .logo\x7bwidth:28px;height:28px;object-fit:contain;border-radius:6px;flex:0 0 28px;filter:contrast(1.1)\x7d\n  .name\x7bfont-weight:700\x7d\n  .dish\x7bmargin:4px 0;line-height:1.5\x7d\n  .footer\x7bmargin-top:10px;color:var(--muted);font-size:12px\x7d\n</style>\n<div class=\"wrap\">\n  <div class=\"card\">\n    <h1>Dagens lunch by PMO IT</h1>\n    <h2>" ++
  weekdayUpper ++ "</h2>\n"

/-- The template footer (lines 184-187); `updatedAt` stands for the
formatted `datetime.now(tz=STO_TZ)` timestamp. -/
def htmlFooter (updatedAt : String) : String :=
  "    <div class=\"footer\">Uppdaterad: " ++ updatedAt ++
    " · Tidszon: Europe/Stockholm</div>\n  </div>\n</div>\n"

/-- `render_html` (build.py lines 140-188), with the timestamp string
passed in. -/
def render_html (weekdayUpper : String) (updatedAt : String)
    (dayMenus : List DayMenu) : String :=
  htmlHeader weekdayUpper ++
  String.join (dayMenus.map (renderRest weekdayUpper)) ++
  htmlFooter updatedAt

/-! ## Assembler (build.py lines 125-133 and 190-199) -/

/-- Outcome of `fetch(url)` for one source: the parsed document, or
`str(e)` of the raised exception. -/
abbrev FetchResult := Except String Doc

/-- The f-string of line 199. -/
def errorMenuText (e : String) : String :=
  "(fel vid hämtning: " ++ e ++ ")"

/-- `get_menu_for` (lines 125-133) past the fetch: dispatch on the
lowercased key, unknown keys yield no items. -/
def get_menu_for (key : String) (doc : Doc) (weekdayUpper : String) : DayMenu :=
  if pyLowerStr key == "fei" then ⟨key, parse_fei doc weekdayUpper⟩
  else if pyLowerStr key == "cirkeln" then ⟨key, parse_cirkeln doc weekdayUpper⟩
  else ⟨key, []⟩

/-- The per-source loop of `main` (lines 194-199): a raising fetch is
caught and becomes the single-item error menu; the loop always
continues. -/
def assembleGo (weekdayUpper : String) :
    List (String × FetchResult) → List DayMenu → List DayMenu
  | [], acc => acc
  | (key, res) :: rest, acc =>
    match res with
    | .ok doc =>
      assembleGo weekdayUpper rest (acc ++ [get_menu_for key doc weekdayUpper])
    | .error e =>
      assembleGo weekdayUpper rest (acc ++ [⟨key, [errorMenuText e]⟩])

def assemble (sources : List (String × FetchResult)) (weekdayUpper : String) :
    List DayMenu :=
  assembleGo weekdayUpper sources []

/-! ## Concrete example documents used by witnesses -/

/-- A heading `TISDAG` followed by a three-item list, then another
weekday heading. -/
def exFeiUl : Node :=
  Node.elem "ul"
    [Node.elem "li" [Node.text "Kycklingcurry"],
     Node.elem "li" [Node.text "Vegetarisk lasagne"],
     Node.elem "li" [Node.text "Pannkakor"]]

def exFeiDoc : Doc :=
  [Node.elem "h2" [Node.text "TISDAG"],
   exFeiUl,
   Node.elem "h2" [Node.text "ONSDAG"]]

/-- A Cirkeln-style page: the anchor text node, then sibling blocks in
which the target weekday name recurs before the next weekday. -/
def exCirkDoc : Doc :=
  [Node.elem "div"
    [Node.elem "h2" [Node.text "Lunchmeny Vecka 42"],
     Node.elem "p" [Node.text "Tisdag köttbullar med mos"],
     Node.elem "p" [Node.text "Tisdag pannkakor med sylt"],
     Node.elem "p" [Node.text "Onsdag stekt fisk"]]]

theorem collapseGo_true_headNotWS (l : List Char) :
    headNotWS (collapseGo true l) = true := by
  induction l with
  | nil => rfl
  | cons c cs ih =>
    by_cases h : pyIsSpace c = true
    · simpa [collapseGo, h] using ih
    · simp [collapseGo, h, headNotWS]

theorem wsCollapsed_collapseGo (b : Bool) (l : List Char) :
    wsCollapsed (collapseGo b l) = true := by
  induction l generalizing b with
  | nil => rfl
  | cons c cs ih =>
    by_cases h : pyIsSpace c = true
    · cases b with
      | true => simpa [collapseGo, h] using ih true
      | false =>
        simp only [collapseGo, h, if_true]
        simp [wsCollapsed, collapseGo_true_headNotWS cs, ih true]
    · simp [collapseGo, h, wsCollapsed, ih false]

theorem wsCollapsed_collapseWS (l : List Char) :
    wsCollapsed (collapseWS l) = true :=
  wsCollapsed_collapseGo false l

theorem wsCollapsed_append_left (l1 l2 : List Char)
    (h : wsCollapsed (l1 ++ l2) = true) : wsCollapsed l1 = true := by
  induction l1 with
  | nil => rfl
  | cons c cs ih =>
    rw [List.cons_append] at h
    simp only [wsCollapsed, Bool.and_eq_true] at h ⊢
    refine ⟨?_, ih h.2⟩
    rcases h with ⟨h1, -⟩
    by_cases hc : pyIsSpace c = true
    · rw [if_pos hc] at h1 ⊢
      simp only [Bool.and_eq_true] at h1 ⊢
      refine ⟨h1.1, ?_⟩
      cases cs with
      | nil => rfl
      | cons d ds => simpa [headNotWS] using h1.2
    · rw [if_neg hc]

theorem wsCollapsed_tail (c : Char) (l : List Char)
    (h : wsCollapsed (c :: l) = true) : wsCollapsed l = true := by
  simp only [wsCollapsed, Bool.and_eq_true] at h
  exact h.2

theorem wsCollapsed_dropWhile (p : Char → Bool) (l : List Char)
    (h : wsCollapsed l = true) : wsCollapsed (l.dropWhile p) = true := by
  induction l with
  | nil => exact h
  | cons c cs ih =>
    rw [List.dropWhile_cons]
    by_cases hc : p c = true
    · exact if_pos hc ▸ ih (wsCollapsed_tail c cs h)
    · simpa [hc] using h

theorem wsCollapsed_prefix_closed {l1 l2 : List Char} (hp : l1 <+: l2)
    (h : wsCollapsed l2 = true) : wsCollapsed l1 = true := by
  rcases hp with ⟨t, rfl⟩
  exact wsCollapsed_append_left l1 t h

theorem wsCollapsed_pyStripChars (p : Char → Bool) (l : List Char)
    (h : wsCollapsed l = true) : wsCollapsed (pyStripChars p l) = true :=
  wsCollapsed_prefix_closed (List.rdropWhile_prefix p _) (wsCollapsed_dropWhile p l h)

theorem head?_dropWhile_not (p : Char → Bool) (l : List Char) (c : Char)
    (h : (l.dropWhile p).head? = some c) : p c = false := by
  induction l with
  | nil => simp at h
  | cons d ds ih =>
    rw [List.dropWhile_cons] at h
    by_cases hd : p d = true
    · exact ih (by simpa [hd] using h)
    · rw [if_neg hd, List.head?_cons] at h
      cases h
      simpa using hd

theorem head?_of_prefix_eq {l1 l2 : List Char} (hp : l1 <+: l2) (hne : l1 ≠ []) :
    l1.head? = l2.head? := by
  rcases hp with ⟨t, rfl⟩
  cases l1 with
  | nil => exact absurd rfl hne
  | cons c cs => rfl

theorem pyStripChars_head (p : Char → Bool) (l : List Char) (c : Char)
    (h : (pyStripChars p l).head? = some c) : p c = false := by
  have hne : pyStripChars p l ≠ [] := by
    intro hnil
    rw [hnil] at h
    exact Option.noConfusion h
  have := head?_of_prefix_eq (List.rdropWhile_prefix p (l.dropWhile p)) hne
  exact head?_dropWhile_not p l c (this ▸ h)

theorem pyStripChars_last (p : Char → Bool) (l : List Char) (c : Char)
    (h : (pyStripChars p l).getLast? = some c) : p c = false := by
  have hne : pyStripChars p l ≠ [] := by
    intro hnil
    rw [hnil] at h
    exact Option.noConfusion h
  have hlast := List.rdropWhile_last_not p (l.dropWhile p) hne
  rw [List.getLast?_eq_getLast _ hne] at h
  cases h
  simpa using hlast

theorem stringMk_ne_empty {l : List Char} (h : l ≠ []) : String.mk l ≠ "" := by
  intro he
  exact h (congrArg String.data he)

/-- C4: every line returned by `clean_lines` is non-empty, every
whitespace run in it is a single ASCII space, and it neither begins nor
ends with one of the decorative characters space, bullet, asterisk,
hyphen, en dash, em dash, period; empty lines are discarded and the
relative order of lines is preserved (the output is the order-preserving
filter of the per-line cleanups). -/
theorem clean_lines_normalized (s : String) (ln : String)
    (h : ln ∈ clean_lines s) :
    ln ≠ "" ∧ wsCollapsed ln.data = true ∧
    (∀ c, ln.data.head? = some c → stripSetChar c = false) ∧
    (∀ c, ln.data.getLast? = some c → stripSetChar c = false) := by
  simp only [clean_lines, cleanLinesL, List.mem_map, List.mem_filter] at h
  rcases h with ⟨l, ⟨⟨l0, -, rfl⟩, hne⟩, rfl⟩
  have hdata : (String.mk (cleanLine l0)).data = cleanLine l0 := rfl
  refine ⟨?_, ?_, ?_, ?_⟩
  · exact stringMk_ne_empty (by simpa using hne)
  · rw [hdata]
    exact wsCollapsed_pyStripChars _ _ (wsCollapsed_collapseWS l0)
  · intro c hc
    rw [hdata] at hc
    exact pyStripChars_head _ _ _ hc
  · intro c hc
    rw [hdata] at hc
    exact pyStripChars_last _ _ _ hc

/-- Witness for C4 on a concrete messy input. -/
theorem clean_lines_normalized_witness :
    clean_lines "  • Kött  bullar •\n\n * Fisk. " = ["Kött bullar", "Fisk"] ∧
    ("Kött bullar" ≠ "" ∧ wsCollapsed "Kött bullar".data = true ∧
      (∀ c, "Kött bullar".data.head? = some c → stripSetChar c = false) ∧
      (∀ c, "Kött bullar".data.getLast? = some c → stripSetChar c = false)) := by
  constructor
  · rfl
  · exact clean_lines_normalized "  • Kött  bullar •\n\n * Fisk. " "Kött bullar"
      (by rw [show clean_lines "  • Kött  bullar •\n\n * Fisk. " = ["Kött bullar", "Fisk"] from rfl]; exact List.mem_cons_self _ _)

/-! ### Extractor A theorems -/

/-- C1: `parse_fei` returns the item list of the first candidate
element (scanning heading-like/strong/paragraph elements in document
order whose normalized text equals the weekday label
case-insensitively) that yields a non-empty item list; candidates
after the first successful one contribute nothing, and if no candidate
yields items the result is empty. -/
theorem parse_fei_first_success (doc : Doc) (weekdayUpper : String) :
    parse_fei doc weekdayUpper =
      firstNonEmpty
        ((feiCandidates doc weekdayUpper).map (fun c => feiCandidateItems c.2)) := by
  unfold parse_fei
  generalize feiCandidates doc weekdayUpper = cands
  induction cands with
  | nil => rfl
  | cons c cs ih =>
    by_cases h : (feiCandidateItems c.2).isEmpty
    · have hnil : feiCandidateItems c.2 = [] := List.isEmpty_iff.mp h
      simp [parseFeiGo, firstNonEmpty, hnil, ih]
    · simp [parseFeiGo, firstNonEmpty, h]

/-- C5: if the first candidate's hop walk lands on a `ul` whose item
list is non-empty, `parse_fei` returns exactly that list's entries
(trimmed, non-empty only, in document order). -/
theorem parse_fei_ul_items (doc : Doc) (wd : String) (c : Node × List Node)
    (tail : List (Node × List Node)) (n : Node) (rest : List Node)
    (hc : feiCandidates doc wd = c :: tail)
    (hskip : feiSkip 0 c.2 = some (n, rest))
    (hul : n.name? = some "ul")
    (hne : feiListItems n ≠ []) :
    parse_fei doc wd = feiListItems n := by
  unfold parse_fei
  rw [hc]
  have hitems : feiCandidateItems c.2 = feiListItems n := by
    unfold feiCandidateItems
    rw [hskip]
    simp [hul]
  simp [parseFeiGo, hitems, List.isEmpty_iff, hne]

/-- Witness for C5: a heading `TISDAG` followed by a list with three
items yields exactly those three items in order. -/
theorem parse_fei_ul_items_witness :
    parse_fei exFeiDoc "TISDAG" = ["Kycklingcurry", "Vegetarisk lasagne", "Pannkakor"] := by
  have h := parse_fei_ul_items exFeiDoc "TISDAG"
    (Node.elem "h2" [Node.text "TISDAG"], [exFeiUl, Node.elem "h2" [Node.text "ONSDAG"]])
    [] exFeiUl [Node.elem "h2" [Node.text "ONSDAG"]]
    (by rfl) (by rfl) (by rfl) (by decide)
  rw [h]
  rfl

theorem feiBlockGo_no_stop (l : List Node) : ∀ (k : Nat) (t : String),
    t ∈ feiBlockGo k l → feiIsStop t = false := by
  induction l with
  | nil => intro k t ht; simp [feiBlockGo] at ht
  | cons n rest ih =>
    intro k t ht
    simp only [feiBlockGo] at ht
    by_cases hk : k < 12
    · rw [if_pos hk] at ht
      by_cases hstop : (getText " " n != "" && feiIsStop (getText " " n)) = true
      · rw [if_pos hstop] at ht
        exact absurd ht (List.not_mem_nil t)
      · rw [if_neg hstop] at ht
        rcases List.mem_append.mp ht with h1 | h2
        · by_cases hemp : (getText " " n != "") = true
          · rw [if_pos hemp] at h1
            rcases List.mem_singleton.mp h1 with rfl
            simp only [Bool.and_eq_true, not_and] at hstop
            simpa using fun hcontra => hstop hemp hcontra
          · rw [if_neg hemp] at h1
            exact absurd h1 (List.not_mem_nil t)
        · exact ih (k + 1) t h2
    · rw [if_neg hk] at ht
      exact absurd ht (List.not_mem_nil t)

theorem feiIsStop_ne_empty {t : String} (h : feiIsStop t = true) :
    (t != "") = true := by
  rcases hb : (t == "") with _ | _
  · simpa using hb
  · have : t = "" := by simpa using hb
    rw [this] at h
    exact absurd h (by decide)

theorem feiBlockGo_stops (pre : List Node) : ∀ (k : Nat) (stopN : Node)
    (rest : List Node),
    (∀ n ∈ pre, feiIsStop (getText " " n) = false) →
    feiIsStop (getText " " stopN) = true →
    k + pre.length ≤ 12 →
    feiBlockGo k (pre ++ stopN :: rest) =
      (pre.map (fun n => getText " " n)).filter (fun t => t != "") := by
  induction pre with
  | nil =>
    intro k stopN rest _ hstop hk
    simp only [List.nil_append, feiBlockGo, List.map_nil, List.filter_nil]
    by_cases hklt : k < 12
    · rw [if_pos hklt, if_pos (by simp [feiIsStop_ne_empty hstop, hstop])]
    · rw [if_neg hklt]
  | cons n pre ih =>
    intro k stopN rest hpre hstop hk
    have hklt : k < 12 := by
      have := hk
      simp only [List.length_cons] at this
      omega
    have hn : feiIsStop (getText " " n) = false := hpre n (List.mem_cons_self n pre)
    have hrec := ih (k + 1) stopN rest
      (fun m hm => hpre m (List.mem_cons_of_mem n hm))
      hstop (by simp only [List.length_cons] at hk; omega)
    simp only [List.cons_append, feiBlockGo, if_pos hklt, hn, Bool.and_false,
      if_neg (Bool.false_ne_true), List.map_cons, List.append_eq]
    by_cases hemp : (getText " " n != "") = true
    · rw [if_pos hemp, hrec]
      simp [List.filter_cons, hemp]
    · rw [if_neg hemp, hrec]
      simp only [Bool.not_eq_true] at hemp
      simp [List.filter_cons, hemp]

/-- C6: the running-text walk of Extractor A, bounded to 12 steps,
stops at the first sibling whose whole text matches a weekday label or
section-boundary phrase case-insensitively; that boundary sibling's
text is excluded, and no stop-marker text ever appears in the
collected block. -/
theorem feiBlock_stop_boundary (pre : List Node) (stopN : Node) (rest : List Node)
    (hpre : ∀ n ∈ pre, feiIsStop (getText " " n) = false)
    (hstop : feiIsStop (getText " " stopN) = true)
    (hlen : pre.length ≤ 12) :
    feiBlockGo 0 (pre ++ stopN :: rest) =
      (pre.map (fun n => getText " " n)).filter (fun t => t != "") ∧
    (∀ t ∈ feiBlockGo 0 (pre ++ stopN :: rest), feiIsStop t = false) :=
  ⟨feiBlockGo_stops pre 0 stopN rest hpre hstop (by simpa using hlen),
   fun t ht => feiBlockGo_no_stop (pre ++ stopN :: rest) 0 t ht⟩

/-- Witness for C6: a content block immediately followed by a sibling
reading `Onsdag` collects only the content text. -/
theorem feiBlock_stop_boundary_witness :
    feiBlockGo 0
        ([Node.elem "p" [Node.text "Kycklingcurry med ris"]] ++
          Node.elem "p" [Node.text "Onsdag"] :: [Node.elem "p" [Node.text "Fisk"]]) =
      ["Kycklingcurry med ris"] ∧
    feiIsStop "Kycklingcurry med ris" = false := by
  have h := feiBlock_stop_boundary
    [Node.elem "p" [Node.text "Kycklingcurry med ris"]]
    (Node.elem "p" [Node.text "Onsdag"])
    [Node.elem "p" [Node.text "Fisk"]]
    (by
      intro n hn
      rcases List.mem_singleton.mp hn with rfl
      decide)
    (by decide)
    (by decide)
  refine ⟨?_, ?_⟩
  · rw [h.1]
    rfl
  · exact h.2 "Kycklingcurry med ris" (by rw [h.1]; decide)

/-! ### Renderer theorems -/

theorem forceGo_no_sep (sep : Char) (l : List Char) (hs : sep ∉ l) :
    ∀ buf : List Char, forceGo sep false buf l = buf.reverse ++ l := by
  induction l with
  | nil => intro buf; simp [forceGo]
  | cons c cs ih =>
    intro buf
    have hc : ¬(c == sep) = true := by
      simp only [beq_iff_eq]
      exact fun he => hs (he ▸ List.mem_cons_self c cs)
    have hcs : sep ∉ cs := fun hm => hs (List.mem_cons_of_mem c hm)
    by_cases hws : pyIsSpace c = true
    · rw [show forceGo sep false buf (c :: cs) = forceGo sep false (c :: buf) cs by
        simp [forceGo, hws]]
      rw [ih hcs (c :: buf)]
      simp
    · rw [show forceGo sep false buf (c :: cs) =
          buf.reverse ++ c :: forceGo sep false [] cs by
        simp [forceGo, hws, hc]]
      rw [ih hcs []]
      simp

theorem forceGo_mem (sep : Char) (l : List Char) :
    ∀ (absorb : Bool) (buf : List Char) (c : Char),
      c ∈ forceGo sep absorb buf l → c ∈ buf ∨ c ∈ l ∨ c ∈ "<br>".data := by
  induction l with
  | nil =>
    intro absorb buf c hc
    simp only [forceGo, List.mem_reverse] at hc
    exact Or.inl hc
  | cons d ds ih =>
    intro absorb buf c hc
    by_cases hws : pyIsSpace d = true
    · cases absorb with
      | true =>
        rw [show forceGo sep true buf (d :: ds) = forceGo sep true buf ds by
          simp [forceGo, hws]] at hc
        rcases ih true buf c hc with h | h | h
        · exact Or.inl h
        · exact Or.inr (Or.inl (List.mem_cons_of_mem d h))
        · exact Or.inr (Or.inr h)
      | false =>
        rw [show forceGo sep false buf (d :: ds) = forceGo sep false (d :: buf) ds by
          simp [forceGo, hws]] at hc
        rcases ih false (d :: buf) c hc with h | h | h
        · rcases List.mem_cons.mp h with rfl | h
          · exact Or.inr (Or.inl (List.mem_cons_self c ds))
          · exact Or.inl h
        · exact Or.inr (Or.inl (List.mem_cons_of_mem d h))
        · exact Or.inr (Or.inr h)
    · by_cases hsep : (d == sep) = true
      · rw [show forceGo sep absorb buf (d :: ds) =
            "<br>".data ++ forceGo sep true [] ds by
          simp [forceGo, hws, hsep]] at hc
        rcases List.mem_append.mp hc with h | h
        · exact Or.inr (Or.inr h)
        · rcases ih true [] c h with h | h | h
          · exact absurd h (List.not_mem_nil c)
          · exact Or.inr (Or.inl (List.mem_cons_of_mem d h))
          · exact Or.inr (Or.inr h)
      · rw [show forceGo sep absorb buf (d :: ds) =
            buf.reverse ++ d :: forceGo sep false [] ds by
          simp [forceGo, hws, hsep]] at hc
        rcases List.mem_append.mp hc with h | h
        · exact Or.inl (List.mem_reverse.mp h)
        · rcases List.mem_cons.mp h with rfl | h
          · exact Or.inr (Or.inl (List.mem_cons_self c ds))
          · rcases ih false [] c h with h | h | h
            · exact absurd h (List.not_mem_nil c)
            · exact Or.inr (Or.inl (List.mem_cons_of_mem d h))
            · exact Or.inr (Or.inr h)

theorem forceGo_sep_not_mem (sep : Char) (hws : pyIsSpace sep = false)
    (hbr : sep ∉ "<br>".data) (l : List Char) :
    ∀ (absorb : Bool) (buf : List Char), sep ∉ buf →
      sep ∉ forceGo sep absorb buf l := by
  induction l with
  | nil =>
    intro absorb buf hbuf hc
    rw [forceGo] at hc
    exact hbuf (List.mem_reverse.mp hc)
  | cons d ds ih =>
    intro absorb buf hbuf hc
    by_cases hdws : pyIsSpace d = true
    · have hd : d ≠ sep := fun he => by rw [he] at hdws; rw [hdws] at hws; cases hws
      cases absorb with
      | true =>
        rw [show forceGo sep true buf (d :: ds) = forceGo sep true buf ds by
          simp [forceGo, hdws]] at hc
        exact ih true buf hbuf hc
      | false =>
        rw [show forceGo sep false buf (d :: ds) = forceGo sep false (d :: buf) ds by
          simp [forceGo, hdws]] at hc
        refine ih false (d :: buf) ?_ hc
        intro hm
        rcases List.mem_cons.mp hm with he | hm
        · exact hd he.symm
        · exact hbuf hm
    · by_cases hdsep : (d == sep) = true
      · rw [show forceGo sep absorb buf (d :: ds) =
            "<br>".data ++ forceGo sep true [] ds by
          simp [forceGo, hdws, hdsep]] at hc
        rcases List.mem_append.mp hc with h | h
        · exact hbr h
        · exact ih true [] (List.not_mem_nil sep) h
      · rw [show forceGo sep absorb buf (d :: ds) =
            buf.reverse ++ d :: forceGo sep false [] ds by
          simp [forceGo, hdws, hdsep]] at hc
        rcases List.mem_append.mp hc with h | h
        · exact hbuf (List.mem_reverse.mp h)
        · rcases List.mem_cons.mp h with he | h
          · exact absurd he.symm (by simpa using hdsep)
          · exact ih false [] (List.not_mem_nil sep) h

theorem slash_not_mem_force (s : String) : '/' ∉ (force_linebreaks s).data := by
  unfold force_linebreaks
  intro hc
  rcases forceGo_mem '|' (forceGo '/' false [] s.data) false [] '/' hc with h | h | h
  · exact List.not_mem_nil _ h
  · exact forceGo_sep_not_mem '/' (by decide) (by decide) s.data false []
      (List.not_mem_nil _) h
  · simp at h

theorem pipe_not_mem_force (s : String) : '|' ∉ (force_linebreaks s).data := by
  unfold force_linebreaks
  intro hc
  exact forceGo_sep_not_mem '|' (by decide) (by decide)
    (forceGo '/' false [] s.data) false [] (List.not_mem_nil _) hc

/-- C9: `force_linebreaks` replaces every slash and pipe (with their
surrounding whitespace) by `<br>` — the output never contains a slash
or a pipe — while dish text without slashes or pipes is rendered
unchanged; `"Fish / Chips"` becomes two lines split at the slash. -/
theorem force_linebreaks_spec :
    (∀ s : String, '/' ∉ s.data → '|' ∉ s.data → force_linebreaks s = s) ∧
    (∀ s : String, '/' ∉ (force_linebreaks s).data ∧ '|' ∉ (force_linebreaks s).data) ∧
    force_linebreaks "Fish / Chips" = "Fish<br>Chips" := by
  refine ⟨?_, fun s => ⟨slash_not_mem_force s, pipe_not_mem_force s⟩, by decide⟩
  intro s h1 h2
  unfold force_linebreaks
  rw [forceGo_no_sep '/' s.data h1 [], List.reverse_nil, List.nil_append,
    forceGo_no_sep '|' s.data h2 [], List.reverse_nil, List.nil_append]

/-- Witness for C9 at concrete inputs. -/
theorem force_linebreaks_spec_witness :
    force_linebreaks "Fisksoppa" = "Fisksoppa" ∧
    '/' ∉ (force_linebreaks "Fish / Chips").data :=
  ⟨force_linebreaks_spec.1 "Fisksoppa" (by decide) (by decide),
   (force_linebreaks_spec.2.1 "Fish / Chips").1⟩

/-! ### Assembler theorems -/

theorem get_menu_for_key (key : String) (doc : Doc) (wd : String) :
    (get_menu_for key doc wd).restaurant_key = key := by
  unfold get_menu_for
  split_ifs <;> rfl

theorem assembleGo_acc (wd : String) (srcs : List (String × FetchResult)) :
    ∀ acc, assembleGo wd srcs acc = acc ++ assembleGo wd srcs [] := by
  induction srcs with
  | nil => intro acc; simp [assembleGo]
  | cons s rest ih =>
    intro acc
    rcases s with ⟨key, res⟩
    cases res with
    | ok doc =>
      show assembleGo wd rest (acc ++ [get_menu_for key doc wd]) =
        acc ++ assembleGo wd rest ([] ++ [get_menu_for key doc wd])
      rw [ih (acc ++ [get_menu_for key doc wd]),
        ih ([] ++ [get_menu_for key doc wd])]
      simp
    | error e =>
      show assembleGo wd rest (acc ++ [DayMenu.mk key [errorMenuText e]]) =
        acc ++ assembleGo wd rest ([] ++ [DayMenu.mk key [errorMenuText e]])
      rw [ih (acc ++ [DayMenu.mk key [errorMenuText e]]),
        ih ([] ++ [DayMenu.mk key [errorMenuText e]])]
      simp

/-- C3: the assembled result has exactly one `DayMenu` per source, in
registry order; a source whose fetch raised contributes the single-item
error menu embedding the failure reason, and every other source's entry
is exactly what its own fetch outcome determines (failures do not abort
or perturb the rest). -/
theorem assemble_per_source (sources : List (String × FetchResult)) (wd : String) :
    assemble sources wd = sources.map (fun s =>
      match s.2 with
      | .ok doc => get_menu_for s.1 doc wd
      | .error e => ⟨s.1, [errorMenuText e]⟩) ∧
    (assemble sources wd).map (fun d => d.restaurant_key) =
      sources.map (fun s => s.1) := by
  have hmain : assemble sources wd = sources.map (fun s =>
      match s.2 with
      | .ok doc => get_menu_for s.1 doc wd
      | .error e => ⟨s.1, [errorMenuText e]⟩) := by
    unfold assemble
    induction sources with
    | nil => rfl
    | cons s rest ih =>
      rcases s with ⟨key, res⟩
      cases res with
      | ok doc =>
        show assembleGo wd rest ([] ++ [get_menu_for key doc wd]) = _
        rw [assembleGo_acc wd rest ([] ++ [get_menu_for key doc wd])]
        simpa using ih
      | error e =>
        show assembleGo wd rest ([] ++ [DayMenu.mk key [errorMenuText e]]) = _
        rw [assembleGo_acc wd rest ([] ++ [DayMenu.mk key [errorMenuText e]])]
        simpa using ih
  refine ⟨hmain, ?_⟩
  rw [hmain, List.map_map]
  refine List.map_congr_left ?_
  intro s _
  rcases s with ⟨key, res⟩
  cases res with
  | ok doc => simpa using get_menu_for_key key doc wd
  | error e => rfl

/-! ### Extractor B filtering (C7) -/

/-- C7: every string `parse_cirkeln` returns is longer than 3
characters and does not begin, case-insensitively, with `Pris`, `11:`,
`Dagens` or `Veckans`. -/
theorem parse_cirkeln_filtered (doc : Doc) (weekdayUpper ln : String)
    (h : ln ∈ parse_cirkeln doc weekdayUpper) :
    3 < ln.length ∧ cirkBoilerplate ln = false := by
  unfold parse_cirkeln at h
  cases hm : cirkMatch (pyCapitalize weekdayUpper) (cirkCombined doc).data with
  | none =>
    rw [hm] at h
    exact absurd h (List.not_mem_nil ln)
  | some block =>
    rw [hm] at h
    have hp := List.of_mem_filter h
    simp only [Bool.and_eq_true, decide_eq_true_eq, Bool.not_eq_true'] at hp
    exact hp

/-- Witness for C7. -/
theorem parse_cirkeln_filtered_witness :
    3 < ("köttbullar med mos" : String).length ∧
    cirkBoilerplate "köttbullar med mos" = false :=
  parse_cirkeln_filtered exCirkDoc "TISDAG" "köttbullar med mos" (by decide)

/-! ### Placeholder rendering (C8, C10) -/

theorem forceGo_cons_keep (sep c : Char) (l : List Char)
    (hw : pyIsSpace c = false) (hs : (c == sep) = false) :
    forceGo sep false [] (c :: l) = c :: forceGo sep false [] l := by
  simp [forceGo, hw, hs]

theorem force_errorMenuText_head (e : String) :
    ∃ t, (force_linebreaks (errorMenuText e)).data = '(' :: t := by
  have hd : (errorMenuText e).data =
      '(' :: ("fel vid hämtning: ".data ++ (e.data ++ [')'])) := by
    unfold errorMenuText
    simp [List.append_assoc]
  unfold force_linebreaks
  rw [hd, forceGo_cons_keep '/' '(' _ (by decide) (by decide),
    forceGo_cons_keep '|' '(' _ (by decide) (by decide)]
  exact ⟨_, rfl⟩

theorem errorLine_ne_placeholder (wdU e : String) :
    "      <div class=\x27dish\x27>" ++ force_linebreaks (errorMenuText e) ++
        "</div>\n" ≠
      "      <div class=\x27dish\x27><em>ingen meny hittad för " ++
        pyCapitalize wdU ++ "</em></div>\n" := by
  intro hs
  have hdata := congrArg String.data hs
  simp only [String.data_append, List.append_assoc] at hdata
  obtain ⟨t, hft⟩ := force_errorMenuText_head e
  have hL : ("      <div class=\x27dish\x27>".data ++
      ((force_linebreaks (errorMenuText e)).data ++ "</div>\n".data))[24]? =
        some '(' := by
    rw [List.getElem?_append_right (by decide), hft,
      show ("      <div class=\x27dish\x27>".data.length) = 24 from by decide,
      Nat.sub_self]
    simp
  rw [hdata, List.getElem?_append_left (by decide)] at hL
  exact Option.noConfusion hL (fun hc => Char.noConfusion hc (by decide))

/-- C8: a menu whose item list is empty renders as exactly the single
italic `ingen meny hittad för <Weekday>` placeholder line (weekday
capitalized) with no dish lines; a non-empty item list — the shape of a
fetch-error placeholder — renders as ordinary dish lines, and an error
menu never renders equal to the no-menu placeholder. -/
theorem render_no_menu_placeholder (weekdayUpper : String) (dm : DayMenu) :
    (dm.items = [] →
      dishLines weekdayUpper dm =
        ["      <div class=\x27dish\x27><em>ingen meny hittad för " ++
          pyCapitalize weekdayUpper ++ "</em></div>\n"]) ∧
    (dm.items ≠ [] →
      dishLines weekdayUpper dm = dm.items.map (fun dish =>
        "      <div class=\x27dish\x27>" ++ force_linebreaks dish ++ "</div>\n")) ∧
    (∀ k e, dishLines weekdayUpper ⟨k, [errorMenuText e]⟩ ≠
      dishLines weekdayUpper ⟨k, []⟩) := by
  refine ⟨?_, ?_, ?_⟩
  · intro h
    simp [dishLines, h]
  · intro h
    have hne : dm.items.isEmpty = false := by
      cases hi : dm.items with
      | nil => exact absurd hi h
      | cons a l => rfl
    simp [dishLines, hne]
  · intro k e heq
    simp only [dishLines, List.isEmpty_nil, if_true, List.isEmpty_cons,
      if_false, List.map_cons, List.map_nil] at heq
    injection heq with h1 h2
    exact errorLine_ne_placeholder weekdayUpper e h1

/-- Witness for C8: empty items render the capitalized placeholder. -/
theorem render_no_menu_placeholder_witness :
    dishLines "ONSDAG" ⟨"Cirkeln", []⟩ =
      ["      <div class=\x27dish\x27><em>ingen meny hittad för Onsdag</em></div>\n"] := by
  have h := (render_no_menu_placeholder "ONSDAG" ⟨"Cirkeln", []⟩).1 rfl
  rw [h]
  decide

/-- C10: the renderer applies the slash/pipe splitting to every item,
including the single-item error placeholder the assembler synthesizes;
an error message containing a slash or pipe is therefore not rendered
verbatim. -/
theorem render_error_forced_breaks (weekdayUpper key e : String) :
    assemble [(key, Except.error e)] weekdayUpper = [⟨key, [errorMenuText e]⟩] ∧
    dishLines weekdayUpper ⟨key, [errorMenuText e]⟩ =
      ["      <div class=\x27dish\x27>" ++ force_linebreaks (errorMenuText e) ++
        "</div>\n"] ∧
    ('/' ∈ (errorMenuText e).data →
      force_linebreaks (errorMenuText e) ≠ errorMenuText e) ∧
    ('|' ∈ (errorMenuText e).data →
      force_linebreaks (errorMenuText e) ≠ errorMenuText e) := by
  refine ⟨rfl, by simp [dishLines], ?_, ?_⟩
  · intro hm heq
    exact slash_not_mem_force (errorMenuText e) (by rw [heq]; exact hm)
  · intro hm heq
    exact pipe_not_mem_force (errorMenuText e) (by rw [heq]; exact hm)

/-- Witness for C10 on an error message containing a slash. -/
theorem render_error_forced_breaks_witness :
    force_linebreaks (errorMenuText "HTTPSConnectionPool(host=x) / timeout") ≠
      errorMenuText "HTTPSConnectionPool(host=x) / timeout" ∧
    dishLines "TISDAG"
        ⟨"FEI", [errorMenuText "HTTPSConnectionPool(host=x) / timeout"]⟩ =
      ["      <div class=\x27dish\x27>" ++
        force_linebreaks (errorMenuText "HTTPSConnectionPool(host=x) / timeout") ++
        "</div>\n"] :=
  ⟨(render_error_forced_breaks "TISDAG" "FEI"
      "HTTPSConnectionPool(host=x) / timeout").2.2.1 (by decide),
   (render_error_forced_breaks "TISDAG" "FEI"
      "HTTPSConnectionPool(host=x) / timeout").2.1⟩

/-! ### Extractor B capture (C2)

The code's lookahead differs from the claim's wording in one place:
the alternation `Måndag|Tisdag|Onsdag|Torsdag|Fredag` contains the
target weekday itself, so an occurrence of the *target* day inside its
own block also ends the capture.  The Python `$` also matches just
before a final newline, but a combined container text never ends in a
newline (it joins non-empty stripped texts), so on documents the code
capture coincides with the plain-end spec capture whose boundary set
is all five weekdays. -/

theorem cirkBoundary_eq_specAll (cs : List Char) (h : cs ≠ ['\n']) :
    cirkBoundary cs = specBoundaryAll cs := by
  unfold cirkBoundary specBoundaryAll
  rw [show (cs == ['\n']) = false from beq_eq_false_iff_ne.mpr h]
  simp [Bool.or_false]

theorem getLast?_tail_ne (c x : Char) (cs : List Char)
    (h : (c :: cs).getLast? ≠ some x) : cs.getLast? ≠ some x := by
  cases cs with
  | nil => simp
  | cons d ds =>
    rw [List.getLast?_cons_cons] at h
    exact h

theorem captureWhile_eq_spec (cs : List Char) (h : cs.getLast? ≠ some '\n') :
    captureWhile cs = specCaptureWhile specBoundaryAll cs := by
  induction cs with
  | nil => rfl
  | cons d rest ih =>
    have hne : (d :: rest) ≠ ['\n'] := by
      intro he
      rw [he] at h
      exact h rfl
    rw [captureWhile, specCaptureWhile, cirkBoundary_eq_specAll _ hne]
    by_cases hb : specBoundaryAll (d :: rest) = true
    · rw [if_pos hb, if_pos hb]
    · rw [if_neg hb, if_neg hb, ih (getLast?_tail_ne d '\n' rest h)]

theorem captureFrom_eq_spec (cs : List Char) (h : cs.getLast? ≠ some '\n') :
    captureFrom cs = specCaptureFrom specBoundaryAll cs := by
  cases cs with
  | nil => rfl
  | cons c rest =>
    rw [captureFrom, specCaptureFrom, captureWhile_eq_spec rest (getLast?_tail_ne c '\n' rest h)]

theorem getLast?_of_drop (n : Nat) : ∀ (l : List Char) (c : Char),
    (l.drop n).getLast? = some c → l.getLast? = some c := by
  induction n with
  | zero => intro l c h; exact h
  | succ m ih =>
    intro l c h
    cases l with
    | nil => simp at h
    | cons d ds =>
      rw [List.drop_succ_cons] at h
      have hds := ih ds c h
      cases ds with
      | nil => simp at hds
      | cons e es =>
        rw [List.getLast?_cons_cons]
        exact hds

theorem cirkMatch_eq_specAll (day : String) : ∀ (l : List Char),
    l.getLast? ≠ some '\n' → cirkMatch day l = specSearch day specBoundaryAll l := by
  intro l
  induction l with
  | nil => intro _; rfl
  | cons c cs ih =>
    intro h
    rw [cirkMatch, specSearch]
    by_cases hc : (startsWithCI day.data (c :: cs) &&
        !((c :: cs).drop day.data.length).isEmpty) = true
    · rw [if_pos hc, if_pos hc]
      congr 1
      unfold captureAfter specCaptureAfter
      apply captureFrom_eq_spec
      intro hlast
      exact h (getLast?_of_drop _ _ _ (getLast?_of_drop _ _ _ hlast))
    · rw [if_neg hc, if_neg hc, ih (getLast?_tail_ne c '\n' cs h)]

theorem joinSep_cons_data (sep y : String) (ys : List String) :
    ∃ r, (joinSep sep (y :: ys)).data = y.data ++ r := by
  cases ys with
  | nil => exact ⟨[], by simp [joinSep]⟩
  | cons z zs =>
    refine ⟨sep.data ++ (joinSep sep (z :: zs)).data, ?_⟩
    rw [show joinSep sep (y :: z :: zs) = y ++ sep ++ joinSep sep (z :: zs) from rfl]
    simp [List.append_assoc]

theorem joinSep_cons_ne (sep y : String) (ys : List String) (hy : y ≠ "") :
    joinSep sep (y :: ys) ≠ "" := by
  obtain ⟨r, hr⟩ := joinSep_cons_data sep y ys
  intro he
  rw [he] at hr
  rcases List.append_eq_nil.mp hr.symm with ⟨h1, -⟩
  exact hy (String.ext h1)

theorem joinSep_last_mem (sep : String) : ∀ (parts : List String) (c : Char),
    (∀ p ∈ parts, p ≠ "") →
    (joinSep sep parts).data.getLast? = some c →
    ∃ p ∈ parts, p.data.getLast? = some c := by
  intro parts
  induction parts with
  | nil => intro c _ h; simp [joinSep] at h
  | cons x xs ih =>
    intro c hne h
    cases xs with
    | nil => exact ⟨x, List.mem_singleton.mpr rfl, h⟩
    | cons y ys =>
      have hj : joinSep sep (y :: ys) ≠ "" :=
        joinSep_cons_ne sep y ys (hne y (List.mem_cons_of_mem x (List.mem_cons_self y ys)))
      have hjd : (joinSep sep (y :: ys)).data ≠ [] := fun hd => hj (String.ext hd)
      obtain ⟨d, hd⟩ := Option.isSome_iff_exists.mp (List.getLast?_isSome.mpr hjd)
      rw [show joinSep sep (x :: y :: ys) = x ++ sep ++ joinSep sep (y :: ys) from rfl,
        String.data_append, String.data_append, List.getLast?_append, hd,
        Option.or_some] at h
      cases h
      obtain ⟨p, hp, hlast⟩ := ih c (fun q hq => hne q (List.mem_cons_of_mem x hq)) hd
      exact ⟨p, List.mem_cons_of_mem x hp, hlast⟩

theorem getText_last_not_space (sep : String) (n : Node) (c : Char)
    (h : (getText sep n).data.getLast? = some c) : pyIsSpace c = false := by
  unfold getText at h
  obtain ⟨p, hp, hlast⟩ := joinSep_last_mem sep _ c
    (by
      intro q hq
      simp only [List.mem_filter] at hq
      simpa using hq.2)
    h
  simp only [List.mem_filter, List.mem_map] at hp
  rcases hp with ⟨⟨s, -, rfl⟩, -⟩
  exact pyStripChars_last pyIsSpace s.data c hlast

theorem cirkWalk_mem (l : List Node) : ∀ (k : Nat) (t : String),
    t ∈ cirkWalk k l → ∃ n : Node, t = getText " " n := by
  induction l with
  | nil => intro k t ht; simp [cirkWalk] at ht
  | cons n rest ih =>
    intro k t ht
    rw [cirkWalk] at ht
    by_cases hk : k < 80
    · rw [if_pos hk] at ht
      rcases List.mem_cons.mp ht with rfl | ht
      · exact ⟨n, rfl⟩
      · exact ih (k + 1) t ht
    · rw [if_neg hk] at ht
      exact absurd ht (List.not_mem_nil t)

theorem cirkCombined_last (doc : Doc) :
    (cirkCombined doc).data.getLast? ≠ some '\n' := by
  unfold cirkCombined
  cases hcont : cirkContainer doc with
  | none => simp
  | some p =>
    rcases p with ⟨n, sibs⟩
    intro h
    obtain ⟨q, hq, hlast⟩ := joinSep_last_mem "\n" _ '\n'
      (by
        intro q hq
        simp only [List.mem_filter] at hq
        simpa using hq.2)
      h
    simp only [List.mem_filter] at hq
    obtain ⟨m, rfl⟩ := cirkWalk_mem _ _ _ hq.1
    exact absurd (getText_last_not_space " " m '\n' hlast) (by decide)

/-- C2 (amended): for every document and weekday, `parse_cirkeln`
captures the text after the first case-insensitive occurrence of the
capitalized weekday name in the combined container text, extending
non-greedily up to but not including the first occurrence of ANY of
the five business-day names — including a repeated occurrence of the
target weekday itself — or a fixed trailing marker, or end of string;
matching spans line breaks and the result lines come only from that
captured block. -/
theorem parse_cirkeln_amended_capture (doc : Doc) (weekdayUpper : String) :
    parse_cirkeln doc weekdayUpper = cirkelnSpecAll doc weekdayUpper := by
  unfold parse_cirkeln cirkelnSpecAll
  rw [cirkMatch_eq_specAll (pyCapitalize weekdayUpper) (cirkCombined doc).data
    (cirkCombined_last doc)]

/-- Counterexample to C2 as stated: when the target weekday recurs
inside its own block, the code stops the capture at that repetition,
while a boundary of "any *other* weekday name" would read on to the
next different weekday. -/
theorem cirkeln_capture_counterexample :
    parse_cirkeln exCirkDoc "TISDAG" = ["köttbullar med mos"] ∧
    cirkelnSpecOther exCirkDoc "TISDAG" =
      ["köttbullar med mos", "Tisdag pannkakor med sylt"] ∧
    parse_cirkeln exCirkDoc "TISDAG" ≠ cirkelnSpecOther exCirkDoc "TISDAG" :=
  ⟨by decide, by decide, by decide⟩

end Dagenslunch
